import Mathlib

/-!
Shallow embedding of the hybrid-retrieval and tiered-memory core of the
doctor-assistant backend (`app/rag/retriever.py`, `app/memory/memory_manager.py`
and `app/memory/summarizer.py`).

External collaborators (the embedding service, the vector index, the
`rank_bm25` scoring routine, the Cohere reranking service and the
summarization LLM) are opaque per the design and are passed in as function
parameters; fallible service calls return `Except String`.  Python floats are
modelled as exact rationals and Python character counts as `String.length`.
-/

/-- A result record as produced by the vector store search (`id`, `score`,
`text`, `metadata`) or by the BM25 branch (`text`, `score`, no `id`).
Missing dictionary keys are modelled by `Option` / default values, matching
the `result.get(...)` accesses in `_reciprocal_rank_fusion`.  (The sparse
branch additionally tags results with `"source": "bm25"`, which no consumer
reads; it is omitted here.) -/
structure SearchResult where
  id : Option String := none
  text : String := ""
  score : ℚ := 0
  metadata : List (String × String) := []
deriving Repr, DecidableEq, Inhabited

/-- `result.get("id", result.get("text", ""))`: the key under which a result
is accumulated in the `doc_scores` dictionary. -/
def docId (r : SearchResult) : String := r.id.getD r.text

/-- The value stored for one key of the `doc_scores` dictionary inside
`_reciprocal_rank_fusion`. -/
structure DocVal where
  text : String
  metadata : List (String × String)
  dense_score : ℚ
  sparse_score : ℚ
  rrf_score : ℚ
deriving Repr, DecidableEq, Inhabited

/-- Lookup in an insertion-ordered association list (a Python dict). -/
def alGet? (l : List (String × DocVal)) (k : String) : Option DocVal :=
  match l with
  | [] => none
  | (k2, v) :: t => if k2 = k then some v else alGet? t k

/-- `d[k] = v` on an insertion-ordered association list: update in place when
the key exists, append at the end otherwise (Python dict semantics). -/
def alSet (l : List (String × DocVal)) (k : String) (v : DocVal) : List (String × DocVal) :=
  match l with
  | [] => [(k, v)]
  | (k2, v2) :: t => if k2 = k then (k, v) :: t else (k2, v2) :: alSet t k v

/-- The first `for rank, result in enumerate(dense_results, 1)` loop of
`_reciprocal_rank_fusion`: create the entry if absent (with `dense_score`
taken from the result and `sparse_score = 0`), then add
`alpha * 1/(k + rank)` to its `rrf_score`. -/
def denseFold (alpha : ℚ) (k : ℕ) : List SearchResult → ℕ → List (String × DocVal) → List (String × DocVal)
  | [], _, acc => acc
  | r :: rs, rank, acc =>
    let key := docId r
    let score : ℚ := 1 / ((k : ℚ) + (rank : ℚ))
    let acc2 :=
      match alGet? acc key with
      | none => alSet acc key ⟨r.text, r.metadata, r.score, 0, alpha * score⟩
      | some v => alSet acc key { v with rrf_score := v.rrf_score + alpha * score }
    denseFold alpha k rs (rank + 1) acc2

/-- The second `for rank, result in enumerate(sparse_results, 1)` loop: create
the entry if absent (`dense_score = 0`), otherwise overwrite its
`sparse_score`; in both cases add `(1 - alpha) * 1/(k + rank)` to `rrf_score`. -/
def sparseFold (alpha : ℚ) (k : ℕ) : List SearchResult → ℕ → List (String × DocVal) → List (String × DocVal)
  | [], _, acc => acc
  | r :: rs, rank, acc =>
    let key := docId r
    let score : ℚ := 1 / ((k : ℚ) + (rank : ℚ))
    let acc2 :=
      match alGet? acc key with
      | none => alSet acc key ⟨r.text, r.metadata, 0, r.score, (1 - alpha) * score⟩
      | some v => alSet acc key { v with sparse_score := r.score, rrf_score := v.rrf_score + (1 - alpha) * score }
    sparseFold alpha k rs (rank + 1) acc2

/-- The fully accumulated `doc_scores` dictionary of `_reciprocal_rank_fusion`. -/
def rrfAccum (alpha : ℚ) (k : ℕ) (dense sparse : List SearchResult) : List (String × DocVal) :=
  sparseFold alpha k sparse 1 (denseFold alpha k dense 1 [])

/-- One fused result `{"id": k, **v}` as returned by `_reciprocal_rank_fusion`;
`rerank_score` is attached later by `_rerank` on success. -/
structure FusedResult where
  id : String
  text : String
  metadata : List (String × String)
  dense_score : ℚ
  sparse_score : ℚ
  rrf_score : ℚ
  rerank_score : Option ℚ := none
deriving Repr, DecidableEq, Inhabited

/-- `{"id": k, **v}`. -/
def toFusedResult (p : String × DocVal) : FusedResult :=
  ⟨p.1, p.2.text, p.2.metadata, p.2.dense_score, p.2.sparse_score, p.2.rrf_score, none⟩

/-- Stable insertion of `x` before the first element whose `rrf_score` is not
larger, so that elements with equal score keep their original relative order
(Python `sorted` is stable). -/
def insertDesc (x : FusedResult) : List FusedResult → List FusedResult
  | [] => [x]
  | y :: t => if y.rrf_score ≤ x.rrf_score then x :: y :: t else y :: insertDesc x t

/-- `sorted(..., key=lambda x: x["rrf_score"], reverse=True)`: a stable sort is
extensionally unique, so stable insertion sort coincides with Python sorted. -/
def sortDesc : List FusedResult → List FusedResult
  | [] => []
  | x :: xs => insertDesc x (sortDesc xs)

/-- `HybridRetriever._reciprocal_rank_fusion(dense_results, sparse_results, k)`
with the retriever weight `alpha`. -/
def reciprocal_rank_fusion (alpha : ℚ) (k : ℕ) (dense sparse : List SearchResult) : List FusedResult :=
  sortDesc ((rrfAccum alpha k dense sparse).map toFusedResult)

/-- Whitespace split over a character list dropping empty tokens, as Python
`str.split()` does; `acc` holds the current in-progress token reversed. -/
def splitTokens : List Char → List Char → List String
  | [], acc => if acc.isEmpty then [] else [String.mk acc.reverse]
  | c :: cs, acc =>
    if c.isWhitespace then
      (if acc.isEmpty then [] else [String.mk acc.reverse]) ++ splitTokens cs []
    else splitTokens cs (c :: acc)

/-- `HybridRetriever.preprocess_text`: lowercase, replace characters outside
`[a-z0-9\s]` with a space, then whitespace-split dropping empty tokens. -/
def preprocess_text (text : String) : List String :=
  let lowered := text.toList.map Char.toLower
  let cleaned := lowered.map
    (fun c => if (('a' ≤ c ∧ c ≤ 'z') ∨ ('0' ≤ c ∧ c ≤ '9') ∨ c.isWhitespace) then c else ' ')
  splitTokens cleaned []

/-- The per-process retriever state: `self.documents` and `self.bm25_index`
(the tokenized corpus snapshot held by the `BM25Okapi` object), `self.alpha`
(from `settings.hybrid_alpha`), plus the texts accumulated in the external
vector store by `add_documents` upserts (payload metadata is carried by the
store but plays no role in the properties below). -/
structure RetrieverState where
  vstoreTexts : List String := []
  documents : List String := []
  bm25_index : Option (List (List String)) := none
  alpha : ℚ := 1 / 2
deriving Repr, DecidableEq, Inhabited

/-- `HybridRetriever.index_documents`: embed the batch (service call, may
fail), upsert it into the vector store (which accumulates points), then
REPLACE `self.documents` with the batch and rebuild `self.bm25_index` from the
batch alone. -/
def index_documents (embed_texts : List String → Except String (List (List ℚ)))
    (st : RetrieverState) (documents : List String) : Except String RetrieverState :=
  match embed_texts documents with
  | .error e => .error e
  | .ok _ =>
    .ok { st with
      vstoreTexts := st.vstoreTexts ++ documents,
      documents := documents,
      bm25_index := some (documents.map preprocess_text) }

/-- Stable insertion for index sorting (ties keep ascending index order, as
Python's stable `sorted` over `range(n)` does). -/
def insertIdxDesc (scores : List ℚ) (i : ℕ) : List ℕ → List ℕ
  | [] => [i]
  | j :: t => if scores.getD j 0 ≤ scores.getD i 0 then i :: j :: t else j :: insertIdxDesc scores i t

/-- `sorted(range(len(bm25_scores)), key=lambda i: bm25_scores[i], reverse=True)`. -/
def sortIdxDesc (scores : List ℚ) : List ℕ → List ℕ
  | [] => []
  | i :: is => insertIdxDesc scores i (sortIdxDesc scores is)

/-- The sparse (BM25) branch of `HybridRetriever.retrieve`: empty when no
index has been built, otherwise the top `2*top_k` indices by BM25 score with
score `> 0`, mapped to `self.documents`.  `bm25_scores` stands for the
external `BM25Okapi.get_scores` function applied to the stored tokenized
corpus. -/
def sparseBranch (bm25_scores : List (List String) → List String → List ℚ)
    (st : RetrieverState) (query : String) (top_k : ℕ) : List SearchResult :=
  match st.bm25_index with
  | none => []
  | some tokenized_docs =>
    let query_tokens := preprocess_text query
    let scores := bm25_scores tokenized_docs query_tokens
    let top_indices := (sortIdxDesc scores (List.range scores.length)).take (top_k * 2)
    (top_indices.filter (fun i => decide (0 < scores.getD i 0))).map
      (fun i => { id := none, text := st.documents.getD i "", score := scores.getD i 0 })

/-- The recognized configuration options used by `retrieve`. -/
structure Settings where
  top_k_retrieval : ℕ := 10
  rerank_top_k : ℕ := 5
  cohere_api_key : Option String := none
deriving Repr, DecidableEq, Inhabited

/-- Python truthiness of an `Optional[str]` (`if settings.cohere_api_key:`). -/
def optTruthy : Option String → Bool
  | none => false
  | some s => !s.isEmpty

/-- The mutation loop of `_rerank`: walk the service response in order, and
for each `(index, relevance)` set `rerank_score` on `results[index]`.  An
out-of-range index raises, leaving the list mutated up to that point
(`.error` carries that partially-updated list, which the `except` handler
returns). -/
def applyRerankResp : List FusedResult → List (ℕ × ℚ) → Except (List FusedResult) (List FusedResult)
  | cur, [] => .ok cur
  | cur, (i, s) :: rest =>
    match cur[i]? with
    | none => .error cur
    | some e => applyRerankResp (cur.set i { e with rerank_score := some s }) rest

/-- `HybridRetriever._rerank`: call the Cohere service with the candidate
texts and `top_n = rerank_top_k`; on any failure return the input list
unchanged (silent fallback); on success return the response entries, each
resolved against the (mutated) results — Python appends aliases of the
mutated dicts, so each output entry shows the final state of its dict. -/
def rerankStep (co : String → List String → ℕ → Except String (List (ℕ × ℚ)))
    (settings : Settings) (query : String) (results : List FusedResult) : List FusedResult :=
  match co query (results.map (·.text)) settings.rerank_top_k with
  | .error _ => results
  | .ok resp =>
    match applyRerankResp results resp with
    | .error mutated => mutated
    | .ok finalState => resp.map (fun p => finalState.getD p.1 default)

/-- The post-fusion tail of `retrieve`: truncate to `top_k`, optionally
rerank, and apply the final `[:rerank_top_k if rerank else top_k]` slice. -/
def postFusion (co : String → List String → ℕ → Except String (List (ℕ × ℚ)))
    (settings : Settings) (query : String) (rerank : Bool) (top_k : ℕ)
    (fused : List FusedResult) : List FusedResult :=
  let fused_results := fused.take top_k
  let fused_results :=
    if rerank && optTruthy settings.cohere_api_key then rerankStep co settings query fused_results
    else fused_results
  fused_results.take (if rerank then settings.rerank_top_k else top_k)

/-- Python `top_k or settings.top_k_retrieval` on an `Optional[int]`: both
`None` and `0` are falsy, so either falls back to the configured default. -/
def orDefault (n? : Option ℕ) (d : ℕ) : ℕ :=
  match n? with
  | none => d
  | some n => if n = 0 then d else n

/-- `HybridRetriever.retrieve`: resolve `top_k` by Python or-coalescing
(`None`/`0` fall back to `settings.top_k_retrieval`), embed the query
(failure propagates), search the vector index for `2*top_k` neighbours
(failure propagates), compute the sparse branch, fuse with RRF at `k = 60`,
then truncate / rerank. -/
def retrieve (settings : Settings)
    (embed : String → Except String (List ℚ))
    (vsearch : List ℚ → ℕ → List (String × String) → Except String (List SearchResult))
    (bm25_scores : List (List String) → List String → List ℚ)
    (co : String → List String → ℕ → Except String (List (ℕ × ℚ)))
    (st : RetrieverState) (query : String) (top_k? : Option ℕ)
    (filters : List (String × String)) (rerank : Bool) :
    Except String (List FusedResult) :=
  let top_k := orDefault top_k? settings.top_k_retrieval
  match embed query with
  | .error e => .error e
  | .ok query_embedding =>
    match vsearch query_embedding (top_k * 2) filters with
    | .error e => .error e
    | .ok dense_results =>
      let sparse_results := sparseBranch bm25_scores st query top_k
      .ok (postFusion co settings query rerank top_k
        (reciprocal_rank_fusion st.alpha 60 dense_results sparse_results))

/-- A message dictionary `{'role', 'content', 'timestamp'}` as built by the
memory manager from the conversation store. -/
structure Message where
  role : String
  content : String
  timestamp : String
deriving Repr, DecidableEq, Inhabited

/-- The `MemoryThresholds` configuration class with its source defaults. -/
structure MemoryThresholds where
  SINGLE_CHAT_TOKEN_THRESHOLD : ℕ := 2000
  SINGLE_CHAT_SUMMARY_TARGET : ℕ := 500
  TOTAL_MEMORY_TOKEN_THRESHOLD : ℕ := 8000
  TOTAL_MEMORY_SUMMARY_TARGET : ℕ := 2000
  SINGLE_CHAT_MESSAGE_THRESHOLD : ℕ := 30
  TOTAL_MEMORY_MESSAGE_THRESHOLD : ℕ := 100
  RECENT_CONVERSATIONS_DAYS : ℕ := 30
  MAX_CONVERSATIONS_TO_RETRIEVE : ℕ := 10
deriving Repr, DecidableEq, Inhabited

/-- `MemoryThresholds()` with all defaults. -/
def defaultThresholds : MemoryThresholds := {}

/-- `ConversationMemory` (creation timestamps are modelled as naturals,
rendered by `toString` where Python calls `isoformat()`). -/
structure ConversationMemory where
  conversation_id : String
  session_id : String
  messages : List Message
  created_at : ℕ
  is_summarized : Bool
  summary : Option String
  token_count : ℕ
deriving Repr, DecidableEq, Inhabited

/-- `ConversationMemory._estimate_tokens`: total content characters
integer-divided by 4. -/
def estimate_tokens (messages : List Message) : ℕ :=
  (messages.map (fun m => m.content.length)).sum / 4

/-- The `ConversationMemory(...)` constructor as called in
`get_long_term_memory` (no summary, no explicit token count, so
`token_count` falls back to the estimate). -/
def mkConversationMemory (conversation_id session_id : String)
    (messages : List Message) (created_at : ℕ) : ConversationMemory :=
  { conversation_id, session_id, messages, created_at,
    is_summarized := false, summary := none, token_count := estimate_tokens messages }

/-- `MemoryManager._should_summarize_conversation`. -/
def should_summarize_conversation (th : MemoryThresholds) (memory : ConversationMemory) : Bool :=
  if memory.token_count > th.SINGLE_CHAT_TOKEN_THRESHOLD then true
  else if memory.messages.length > th.SINGLE_CHAT_MESSAGE_THRESHOLD then true
  else false

/-- A conversation row together with its ordered message rows, as fetched by
the (external) database queries in `get_long_term_memory`. -/
structure RawConversation where
  id : String
  session_id : String
  messages : List Message
  created_at : ℕ
deriving Repr, DecidableEq, Inhabited

/-- The per-conversation body of the `get_long_term_memory` loop: build a
fresh `ConversationMemory`, and when the single-chat threshold fires invoke
the summarizer (`ssingle`, an opaque collaborator returning the summary text)
with `SINGLE_CHAT_SUMMARY_TARGET`, flip `is_summarized`, store the summary and
re-estimate `token_count` from it. -/
def processConversation (th : MemoryThresholds)
    (ssingle : List Message → ℕ → String) (conv : RawConversation) : ConversationMemory :=
  let memory := mkConversationMemory conv.id conv.session_id conv.messages conv.created_at
  if should_summarize_conversation th memory then
    let summary := ssingle conv.messages th.SINGLE_CHAT_SUMMARY_TARGET
    { memory with is_summarized := true, summary := some summary, token_count := summary.length / 4 }
  else memory

/-- The `all_messages` accumulation of `_compress_memory`: an already
summarized conversation with a (truthy) summary contributes one synthetic
assistant message, anything else contributes its raw messages. -/
def olderMessages (older : List ConversationMemory) : List Message :=
  older.foldl
    (fun acc mem =>
      if mem.is_summarized && optTruthy mem.summary then
        acc ++ [⟨"assistant", "[Previous conversation summary]: " ++ mem.summary.getD "",
          toString mem.created_at⟩]
      else acc ++ mem.messages)
    []

/-- `MemoryManager._compress_memory`: with at most 2 items return them
unchanged; otherwise keep the 2 most recent and collapse the rest into one
synthetic `"compressed_memory"` entry summarized by the longitudinal
summarizer `smulti` — unless the older items contribute no messages at all,
in which case only the 2 recent items are returned.  `now` stands for
`datetime.utcnow()`. -/
def compress_memory (th : MemoryThresholds) (smulti : List Message → ℕ → String)
    (now : ℕ) (memory_items : List ConversationMemory) : List ConversationMemory :=
  if memory_items.length ≤ 2 then memory_items
  else
    let recent := memory_items.take 2
    let older := memory_items.drop 2
    let all_messages := olderMessages older
    if !all_messages.isEmpty then
      let comprehensive_summary := smulti all_messages th.TOTAL_MEMORY_SUMMARY_TARGET
      let compressed_memory : ConversationMemory :=
        { conversation_id := "compressed_memory", session_id := "multiple",
          messages := [], created_at := ((older.head?).map (·.created_at)).getD now,
          is_summarized := true, summary := some comprehensive_summary,
          token_count := comprehensive_summary.length / 4 }
      recent ++ [compressed_memory]
    else recent

/-- `MemoryManager.get_long_term_memory` after the database fetch: process
each conversation through the single-chat threshold, then compress when the
total token estimate exceeds `TOTAL_MEMORY_TOKEN_THRESHOLD`.  `convs` is the
fetched list, most recently updated first. -/
def get_long_term_memory (th : MemoryThresholds)
    (ssingle smulti : List Message → ℕ → String) (now : ℕ)
    (convs : List RawConversation) : List ConversationMemory :=
  let memory_items := convs.map (processConversation th ssingle)
  let total_tokens := (memory_items.map (·.token_count)).sum
  if total_tokens > th.TOTAL_MEMORY_TOKEN_THRESHOLD then compress_memory th smulti now memory_items
  else memory_items

/-- `"\n".join(parts)`. -/
def joinSep (sep : String) : List String → String
  | [] => ""
  | [x] => x
  | x :: xs => x ++ sep ++ joinSep sep xs

/-- `ConversationSummarizer._format_messages`. -/
def format_messages (messages : List Message) : String :=
  joinSep "\n" (messages.map (fun msg =>
    if !msg.timestamp.isEmpty then
      "[" ++ msg.timestamp ++ "] " ++ msg.role.toUpper ++ ": " ++ msg.content
    else msg.role.toUpper ++ ": " ++ msg.content))

/-- `ConversationSummarizer._fallback_summary`: a deterministic extractive
summary from the first (up to 5) user turns, each truncated to 100
characters. -/
def fallback_summary (messages : List Message) : String :=
  let user_messages := messages.filter (fun m => m.role == "user")
  if user_messages.isEmpty then "No significant medical information to summarize."
  else
    let topics := (user_messages.take 5).map (fun m => m.content.take 100)
    let summary_parts :=
      "Medical consultation covered the following topics:" :: topics.map (fun t => "- " ++ t)
    let summary_parts :=
      if user_messages.length > 5 then
        summary_parts ++ ["- ... and " ++ toString (user_messages.length - 5) ++ " more topics"]
      else summary_parts
    joinSep "\n" summary_parts

/-- The system instructions of the single-conversation summarization prompt. -/
def singleChatSystemPrompt : String :=
  "You are a medical conversation summarizer. Create a concise medical summary of the following patient conversation.\n\nIMPORTANT GUIDELINES:\n1. Focus on MEDICAL INFORMATION ONLY (symptoms, diagnoses, treatments, advice given)\n2. Use clinical terminology where appropriate\n3. Preserve specific details: medications, dosages, allergies, conditions\n4. Note any follow-up recommendations or warnings\n5. Keep it factual and structured\n6. Omit pleasantries, greetings, and non-medical chatter\n\nFORMAT:\nChief Complaint: [Main issue discussed]\nKey Symptoms: [List of symptoms mentioned]\nMedical Advice Given: [Summary of recommendations]\nMedications/Treatments: [Any mentioned]\nFollow-up: [Any follow-up instructions]\nRed Flags: [Any warnings or concerns raised]\n"

/-- `ConversationSummarizer.summarize_conversation`: build the two prompts,
call the LLM (`llm system_prompt user_prompt`, opaque and fallible); on
success return the stripped response, on any exception fall back to the
deterministic extractive summary. -/
def summarize_conversation (llm : String → String → Except String String)
    (messages : List Message) (target_length : ℕ) : String :=
  let conversation_text := format_messages messages
  let system_prompt := singleChatSystemPrompt
  let user_prompt := "Summarize this medical conversation (target ~" ++ toString target_length
    ++ " tokens):\n\n" ++ conversation_text
    ++ "\n\nProvide a structured summary following the format above."
  match llm system_prompt user_prompt with
  | .ok response => response.trim
  | .error _ => fallback_summary messages

/-- The system instructions of the longitudinal summarization prompt. -/
def multiChatSystemPrompt : String :=
  "You are a medical historian creating a comprehensive patient history summary from multiple past conversations.\n\nIMPORTANT GUIDELINES:\n1. Create a LONGITUDINAL medical summary showing progression over time\n2. Group information by medical categories (conditions, medications, symptoms, etc.)\n3. Note any changes or progression in health status\n4. Highlight recurring issues or chronic conditions\n5. Preserve all medication names, dosages, and allergies\n6. Note patterns and trends\n7. Keep it concise but comprehensive\n\nFORMAT:\nMedical History Overview: [Brief overview of patient journey]\n\nChronic Conditions: [Ongoing conditions mentioned]\n\nRecurring Symptoms: [Symptoms mentioned across multiple visits]\n\nMedications History: [All medications mentioned over time]\n\nAllergies/Contraindications: [Any allergies or warnings]\n\nKey Medical Advice: [Important recommendations given]\n\nTrends and Observations: [Any patterns noticed]\n"

/-- `ConversationSummarizer.summarize_multiple_conversations` (longitudinal
mode), with the same fallback policy as the single-chat mode. -/
def summarize_multiple_conversations (llm : String → String → Except String String)
    (messages : List Message) (target_length : ℕ) : String :=
  let conversation_text := format_messages messages
  let system_prompt := multiChatSystemPrompt
  let user_prompt := "Create a comprehensive medical history summary from these past conversations (target ~"
    ++ toString target_length ++ " tokens):\n\n" ++ conversation_text
    ++ "\n\nProvide a structured longitudinal summary."
  match llm system_prompt user_prompt with
  | .ok response => response.trim
  | .error _ => fallback_summary messages

/-- The keys of the `doc_scores` dictionary, in insertion order. -/
def keysOf (l : List (String × DocVal)) : List String := l.map Prod.fst

/-- The 0-based position of the first result of a branch whose `docId` is `d`
(so its 1-based rank is that position plus one). -/
def findRank? (d : String) : List SearchResult → Option ℕ
  | [] => none
  | r :: rs => if docId r = d then some 0 else (findRank? d rs).map (· + 1)

/-- The spec-side RRF contribution of one branch: `weight / (k + r)` with `r`
the 1-based rank of `d` in the branch, and `0` when `d` is absent. -/
def branchContrib (w : ℚ) (k : ℕ) (results : List SearchResult) (d : String) : ℚ :=
  match findRank? d results with
  | none => 0
  | some i => w * (1 / ((k : ℚ) + ((i + 1 : ℕ) : ℚ)))

/-- The keys of `l` not already `seen`, in first-seen order. -/
def newKeys : List String → List String → List String
  | [], _ => []
  | x :: xs, seen => if x ∈ seen then newKeys xs seen else x :: newKeys xs (seen ++ [x])

/-- The score a returned result is effectively ordered by: the rerank score
when reranking attached one, the fused RRF score otherwise. -/
def effScore (e : FusedResult) : ℚ := e.rerank_score.getD e.rrf_score

theorem alGet?_alSet_self (l : List (String × DocVal)) (k : String) (v : DocVal) :
    alGet? (alSet l k v) k = some v := by
  induction l with
  | nil => simp [alSet, alGet?]
  | cons p t ih =>
    obtain ⟨k2, v2⟩ := p
    by_cases h : k2 = k
    · simp [alSet, h, alGet?]
    · simp [alSet, h, alGet?, ih]

theorem alGet?_alSet_ne (l : List (String × DocVal)) (k k2 : String) (v : DocVal)
    (h : k2 ≠ k) : alGet? (alSet l k v) k2 = alGet? l k2 := by
  induction l with
  | nil => simp [alSet, alGet?, Ne.symm h]
  | cons p t ih =>
    obtain ⟨k3, v3⟩ := p
    by_cases h3 : k3 = k
    · subst h3
      simp [alSet, alGet?, Ne.symm h]
    · simp [alSet, h3, alGet?, ih]

theorem alGet?_eq_none_iff (l : List (String × DocVal)) (k : String) :
    alGet? l k = none ↔ k ∉ keysOf l := by
  induction l with
  | nil => simp [alGet?, keysOf]
  | cons p t ih =>
    obtain ⟨k2, v2⟩ := p
    by_cases h : k2 = k
    · simp [alGet?, h, keysOf]
    · simp [alGet?, h, keysOf, ih, Ne.symm h]

theorem keysOf_alSet (l : List (String × DocVal)) (k : String) (v : DocVal) :
    keysOf (alSet l k v) = if k ∈ keysOf l then keysOf l else keysOf l ++ [k] := by
  induction l with
  | nil => simp [alSet, keysOf]
  | cons p t ih =>
    obtain ⟨k2, v2⟩ := p
    by_cases h : k2 = k
    · subst h
      simp [alSet, keysOf]
    · have hne : ¬ k = k2 := Ne.symm h
      have hkeys : keysOf (alSet ((k2, v2) :: t) k v) = k2 :: keysOf (alSet t k v) := by
        simp only [alSet, if_neg h, keysOf, List.map_cons]
      rw [hkeys, ih]
      by_cases hmem : k ∈ keysOf t
      · rw [if_pos hmem,
          if_pos (show k ∈ keysOf ((k2, v2) :: t) by
            simp only [keysOf, List.map_cons, List.mem_cons]; exact Or.inr hmem)]
        simp [keysOf]
      · rw [if_neg hmem,
          if_neg (show ¬ k ∈ keysOf ((k2, v2) :: t) by
            simp only [keysOf, List.map_cons, List.mem_cons]; push_neg; exact ⟨hne, hmem⟩)]
        simp [keysOf]

theorem mem_iff_alGet? (l : List (String × DocVal)) (k : String) (v : DocVal)
    (hnd : (keysOf l).Nodup) : (k, v) ∈ l ↔ alGet? l k = some v := by
  induction l with
  | nil => simp [alGet?]
  | cons p t ih =>
    obtain ⟨k2, v2⟩ := p
    rw [keysOf, List.map_cons, List.nodup_cons] at hnd
    obtain ⟨hk2, hnd⟩ := hnd
    by_cases h : k2 = k
    · subst h
      simp only [alGet?, if_pos rfl, List.mem_cons]
      constructor
      · rintro (h1 | h1)
        · cases h1; rfl
        · exact absurd (List.mem_map_of_mem Prod.fst h1) hk2
      · rintro h1
        left
        cases h1
        rfl
    · simp only [alGet?, if_neg h, List.mem_cons]
      rw [← ih hnd]
      constructor
      · rintro (h1 | h1)
        · cases h1; exact absurd rfl h
        · exact h1
      · exact fun h1 => Or.inr h1

theorem newKeys_append_nodup (l : List String) :
    ∀ seen : List String, seen.Nodup → (seen ++ newKeys l seen).Nodup := by
  induction l with
  | nil => intro seen h; simpa [newKeys]
  | cons x xs ih =>
    intro seen h
    by_cases hx : x ∈ seen
    · simpa [newKeys, hx] using ih seen h
    · have h2 : (seen ++ [x]).Nodup := by
        simp [List.nodup_append, h, hx]
      have := ih (seen ++ [x]) h2
      simpa [newKeys, hx, List.append_assoc] using this

theorem denseFold_alGet?_of_not_mem (a : ℚ) (k : ℕ) (rs : List SearchResult)
    (rank : ℕ) (acc : List (String × DocVal)) (d : String) (hd : d ∉ rs.map docId) :
    alGet? (denseFold a k rs rank acc) d = alGet? acc d := by
  induction rs generalizing rank acc with
  | nil => simp [denseFold]
  | cons r rs ih =>
    rw [List.map_cons, List.mem_cons] at hd
    push_neg at hd
    obtain ⟨hr, hrs⟩ := hd
    cases hget : alGet? acc (docId r) with
    | none =>
      simp only [denseFold, hget]
      rw [ih (rank + 1) _ hrs, alGet?_alSet_ne _ _ _ _ hr]
    | some v =>
      simp only [denseFold, hget]
      rw [ih (rank + 1) _ hrs, alGet?_alSet_ne _ _ _ _ hr]

theorem sparseFold_alGet?_of_not_mem (a : ℚ) (k : ℕ) (rs : List SearchResult)
    (rank : ℕ) (acc : List (String × DocVal)) (d : String) (hd : d ∉ rs.map docId) :
    alGet? (sparseFold a k rs rank acc) d = alGet? acc d := by
  induction rs generalizing rank acc with
  | nil => simp [sparseFold]
  | cons r rs ih =>
    rw [List.map_cons, List.mem_cons] at hd
    push_neg at hd
    obtain ⟨hr, hrs⟩ := hd
    cases hget : alGet? acc (docId r) with
    | none =>
      simp only [sparseFold, hget]
      rw [ih (rank + 1) _ hrs, alGet?_alSet_ne _ _ _ _ hr]
    | some v =>
      simp only [sparseFold, hget]
      rw [ih (rank + 1) _ hrs, alGet?_alSet_ne _ _ _ _ hr]

theorem denseFold_rrf (a : ℚ) (k : ℕ) (rs : List SearchResult) (rank : ℕ)
    (acc : List (String × DocVal)) (d : String)
    (hnd : (rs.map docId).Nodup) (hacc : alGet? acc d = none) :
    (alGet? (denseFold a k rs rank acc) d).map DocVal.rrf_score
      = (findRank? d rs).map (fun i => a * (1 / ((k : ℚ) + ((rank + i : ℕ) : ℚ)))) := by
  induction rs generalizing rank acc with
  | nil => simp [denseFold, findRank?, hacc]
  | cons r rs ih =>
    rw [List.map_cons, List.nodup_cons] at hnd
    obtain ⟨hr, hnd⟩ := hnd
    by_cases hd : docId r = d
    · subst hd
      simp only [denseFold, hacc]
      rw [denseFold_alGet?_of_not_mem a k rs (rank + 1) _ _ hr, alGet?_alSet_self]
      simp [findRank?]
    · cases hget : alGet? acc (docId r) with
      | none =>
        simp only [denseFold, hget]
        rw [ih (rank + 1) _ hnd (by rw [alGet?_alSet_ne _ _ _ _ (Ne.symm hd)]; exact hacc)]
        simp only [findRank?, if_neg hd]
        cases hfr : findRank? d rs with
        | none => simp
        | some i =>
          have harith : rank + 1 + i = rank + (i + 1) := by omega
          simp [harith]
          exact Or.inl (by ring)
      | some v =>
        simp only [denseFold, hget]
        rw [ih (rank + 1) _ hnd (by rw [alGet?_alSet_ne _ _ _ _ (Ne.symm hd)]; exact hacc)]
        simp only [findRank?, if_neg hd]
        cases hfr : findRank? d rs with
        | none => simp
        | some i =>
          have harith : rank + 1 + i = rank + (i + 1) := by omega
          simp [harith]
          exact Or.inl (by ring)

theorem sparseFold_rrf (a : ℚ) (k : ℕ) (rs : List SearchResult) (rank : ℕ)
    (acc : List (String × DocVal)) (d : String) (hnd : (rs.map docId).Nodup) :
    (alGet? (sparseFold a k rs rank acc) d).map DocVal.rrf_score
      = match findRank? d rs with
        | none => (alGet? acc d).map DocVal.rrf_score
        | some i => some ((((alGet? acc d).map DocVal.rrf_score).getD 0)
            + (1 - a) * (1 / ((k : ℚ) + ((rank + i : ℕ) : ℚ)))) := by
  induction rs generalizing rank acc with
  | nil => simp [sparseFold, findRank?]
  | cons r rs ih =>
    rw [List.map_cons, List.nodup_cons] at hnd
    obtain ⟨hr, hnd⟩ := hnd
    by_cases hd : docId r = d
    · subst hd
      cases hget : alGet? acc (docId r) with
      | none =>
        simp only [sparseFold, hget]
        rw [sparseFold_alGet?_of_not_mem a k rs (rank + 1) _ _ hr, alGet?_alSet_self]
        simp [findRank?, hget]
      | some v =>
        simp only [sparseFold, hget]
        rw [sparseFold_alGet?_of_not_mem a k rs (rank + 1) _ _ hr, alGet?_alSet_self]
        simp [findRank?, hget]
    · cases hget : alGet? acc (docId r) with
      | none =>
        simp only [sparseFold, hget]
        rw [ih (rank + 1) _ hnd, alGet?_alSet_ne _ _ _ _ (Ne.symm hd)]
        simp only [findRank?, if_neg hd]
        cases hfr : findRank? d rs with
        | none => simp
        | some i =>
          have harith : rank + 1 + i = rank + (i + 1) := by omega
          simp [harith]
      | some v =>
        simp only [sparseFold, hget]
        rw [ih (rank + 1) _ hnd, alGet?_alSet_ne _ _ _ _ (Ne.symm hd)]
        simp only [findRank?, if_neg hd]
        cases hfr : findRank? d rs with
        | none => simp
        | some i =>
          have harith : rank + 1 + i = rank + (i + 1) := by omega
          simp [harith]

theorem rrfAccum_rrf (a : ℚ) (k : ℕ) (dense sparse : List SearchResult) (d : String)
    (hd : (dense.map docId).Nodup) (hs : (sparse.map docId).Nodup) :
    (alGet? (rrfAccum a k dense sparse) d).map DocVal.rrf_score
      = if (findRank? d dense).isSome ∨ (findRank? d sparse).isSome
        then some (branchContrib a k dense d + branchContrib (1 - a) k sparse d)
        else none := by
  unfold rrfAccum
  rw [sparseFold_rrf a k sparse 1 _ d hs]
  have hdense := denseFold_rrf a k dense 1 [] d hd (by simp [alGet?])
  cases hfs : findRank? d sparse with
  | none =>
    cases hfd : findRank? d dense with
    | none =>
      simp only [hdense, hfd]
      simp [branchContrib, hfd, hfs]
    | some i =>
      simp only [hdense, hfd]
      simp only [branchContrib, hfd, hfs, Option.isSome_some, Option.isSome_none, true_or, if_true]
      simp
      left
      ring
  | some j =>
    cases hfd : findRank? d dense with
    | none =>
      simp only [hdense, hfd]
      simp only [branchContrib, hfd, hfs, Option.isSome_some, Option.isSome_none, or_true, if_true]
      simp
      exact Or.inl (by ring)
    | some i =>
      simp only [hdense, hfd]
      simp only [branchContrib, hfd, hfs, Option.isSome_some, true_or, if_true]
      simp
      ring

theorem denseFold_keysOf (a : ℚ) (k : ℕ) (rs : List SearchResult) :
    ∀ (rank : ℕ) (acc : List (String × DocVal)),
      keysOf (denseFold a k rs rank acc) = keysOf acc ++ newKeys (rs.map docId) (keysOf acc) := by
  induction rs with
  | nil => intro rank acc; simp [denseFold, newKeys]
  | cons r rs ih =>
    intro rank acc
    cases hget : alGet? acc (docId r) with
    | none =>
      have hmem : docId r ∉ keysOf acc := (alGet?_eq_none_iff _ _).mp hget
      simp only [denseFold, hget]
      rw [ih, keysOf_alSet, if_neg hmem]
      simp [newKeys, hmem, List.append_assoc]
    | some v =>
      have hmem : docId r ∈ keysOf acc := by
        by_contra hno
        rw [← alGet?_eq_none_iff, hget] at hno
        exact Option.noConfusion hno
      simp only [denseFold, hget]
      rw [ih, keysOf_alSet, if_pos hmem]
      simp [newKeys, hmem]

theorem sparseFold_keysOf (a : ℚ) (k : ℕ) (rs : List SearchResult) :
    ∀ (rank : ℕ) (acc : List (String × DocVal)),
      keysOf (sparseFold a k rs rank acc) = keysOf acc ++ newKeys (rs.map docId) (keysOf acc) := by
  induction rs with
  | nil => intro rank acc; simp [sparseFold, newKeys]
  | cons r rs ih =>
    intro rank acc
    cases hget : alGet? acc (docId r) with
    | none =>
      have hmem : docId r ∉ keysOf acc := (alGet?_eq_none_iff _ _).mp hget
      simp only [sparseFold, hget]
      rw [ih, keysOf_alSet, if_neg hmem]
      simp [newKeys, hmem, List.append_assoc]
    | some v =>
      have hmem : docId r ∈ keysOf acc := by
        by_contra hno
        rw [← alGet?_eq_none_iff, hget] at hno
        exact Option.noConfusion hno
      simp only [sparseFold, hget]
      rw [ih, keysOf_alSet, if_pos hmem]
      simp [newKeys, hmem]

theorem rrfAccum_keysOf (a : ℚ) (k : ℕ) (dense sparse : List SearchResult) :
    keysOf (rrfAccum a k dense sparse)
      = newKeys (dense.map docId) []
        ++ newKeys (sparse.map docId) (newKeys (dense.map docId) []) := by
  unfold rrfAccum
  rw [sparseFold_keysOf, denseFold_keysOf]
  simp [keysOf]

theorem rrfAccum_keys_nodup (a : ℚ) (k : ℕ) (dense sparse : List SearchResult) :
    (keysOf (rrfAccum a k dense sparse)).Nodup := by
  rw [rrfAccum_keysOf]
  have h1 : (newKeys (dense.map docId) []).Nodup := by
    simpa using newKeys_append_nodup (dense.map docId) [] List.nodup_nil
  exact newKeys_append_nodup (sparse.map docId) _ h1

theorem insertDesc_perm (x : FusedResult) (l : List FusedResult) :
    (insertDesc x l).Perm (x :: l) := by
  induction l with
  | nil => simp [insertDesc]
  | cons y t ih =>
    by_cases h : y.rrf_score ≤ x.rrf_score
    · simp [insertDesc, h]
    · simp only [insertDesc, if_neg h]
      exact (ih.cons y).trans (List.Perm.swap x y t)

theorem sortDesc_perm (l : List FusedResult) : (sortDesc l).Perm l := by
  induction l with
  | nil => simp [sortDesc]
  | cons x xs ih => exact (insertDesc_perm x (sortDesc xs)).trans (ih.cons x)

theorem mem_sortDesc (x : FusedResult) (l : List FusedResult) :
    x ∈ sortDesc l ↔ x ∈ l := (sortDesc_perm l).mem_iff

theorem insertDesc_pairwise (x : FusedResult) (l : List FusedResult)
    (h : l.Pairwise (fun a b => b.rrf_score ≤ a.rrf_score)) :
    (insertDesc x l).Pairwise (fun a b => b.rrf_score ≤ a.rrf_score) := by
  induction l with
  | nil => simp [insertDesc]
  | cons y t ih =>
    rw [List.pairwise_cons] at h
    obtain ⟨hy, ht⟩ := h
    by_cases hle : y.rrf_score ≤ x.rrf_score
    · rw [insertDesc, if_pos hle, List.pairwise_cons]
      refine ⟨?_, List.pairwise_cons.mpr ⟨hy, ht⟩⟩
      intro z hz
      rcases List.mem_cons.mp hz with hz | hz
      · subst hz; exact hle
      · exact le_trans (hy z hz) hle
    · rw [insertDesc, if_neg hle, List.pairwise_cons]
      refine ⟨?_, ih ht⟩
      intro z hz
      rcases List.mem_cons.mp ((insertDesc_perm x t).mem_iff.mp hz) with hz | hz
      · subst hz; exact le_of_not_le hle
      · exact hy z hz

theorem sortDesc_pairwise (l : List FusedResult) :
    (sortDesc l).Pairwise (fun a b => b.rrf_score ≤ a.rrf_score) := by
  induction l with
  | nil => simp [sortDesc]
  | cons x xs ih => exact insertDesc_pairwise x (sortDesc xs) ih

theorem insertDesc_filter (c : ℚ) (x : FusedResult) (l : List FusedResult) :
    (insertDesc x l).filter (fun e => decide (e.rrf_score = c))
      = (x :: l).filter (fun e => decide (e.rrf_score = c)) := by
  induction l with
  | nil => rfl
  | cons y t ih =>
    by_cases hle : y.rrf_score ≤ x.rrf_score
    · rw [insertDesc, if_pos hle]
    · rw [insertDesc, if_neg hle]
      have hyx : x.rrf_score < y.rrf_score := lt_of_not_le hle
      by_cases hx : x.rrf_score = c
      · have hy : ¬ (y.rrf_score = c) := by
          rw [← hx]
          exact ne_of_gt hyx
        simp only [List.filter_cons, ih]
        simp [hx, hy]
      · simp only [List.filter_cons, ih]
        simp [hx]

theorem sortDesc_filter (c : ℚ) (l : List FusedResult) :
    (sortDesc l).filter (fun e => decide (e.rrf_score = c))
      = l.filter (fun e => decide (e.rrf_score = c)) := by
  induction l with
  | nil => rfl
  | cons x xs ih =>
    rw [sortDesc, insertDesc_filter c x (sortDesc xs)]
    simp only [List.filter_cons, ih]

/-- C1: for ranked branch lists (each document keyed once per branch), the
fused `rrf_score` of every returned entry is exactly the sum over the
branches containing its key of `weight/(k_rrf + r)` with `r` the 1-based rank
in that branch, `weight = alpha` dense and `1 - alpha` sparse and
`k_rrf = 60`; each key yields a single fused entry, and a key appears among
the fused results exactly when some branch contains it (so a one-branch
document receives that branch's contribution alone). -/
theorem rrf_fused_score_is_branch_sum (a : ℚ) (dense sparse : List SearchResult)
    (hd : (dense.map docId).Nodup) (hs : (sparse.map docId).Nodup) :
    (∀ e ∈ reciprocal_rank_fusion a 60 dense sparse,
        e.rrf_score = branchContrib a 60 dense e.id + branchContrib (1 - a) 60 sparse e.id)
    ∧ ((reciprocal_rank_fusion a 60 dense sparse).map FusedResult.id).Nodup
    ∧ (∀ d : String, ((findRank? d dense).isSome ∨ (findRank? d sparse).isSome)
        ↔ ∃ e ∈ reciprocal_rank_fusion a 60 dense sparse, e.id = d) := by
  have hnodup := rrfAccum_keys_nodup a 60 dense sparse
  refine ⟨?_, ?_, ?_⟩
  · intro e he
    rw [reciprocal_rank_fusion, mem_sortDesc, List.mem_map] at he
    obtain ⟨p, hp, rfl⟩ := he
    have hget : alGet? (rrfAccum a 60 dense sparse) p.1 = some p.2 :=
      (mem_iff_alGet? _ p.1 p.2 hnodup).mp (by simpa using hp)
    have hval := rrfAccum_rrf a 60 dense sparse p.1 hd hs
    rw [hget] at hval
    by_cases hcond : (findRank? p.1 dense).isSome ∨ (findRank? p.1 sparse).isSome
    · rw [if_pos hcond] at hval
      simpa [toFusedResult] using hval
    · rw [if_neg hcond] at hval
      exact absurd hval (by simp)
  · have hmapeq : (((rrfAccum a 60 dense sparse).map toFusedResult).map FusedResult.id)
        = keysOf (rrfAccum a 60 dense sparse) := by
      rw [List.map_map]
      rfl
    have hperm := (sortDesc_perm ((rrfAccum a 60 dense sparse).map toFusedResult)).map FusedResult.id
    rw [reciprocal_rank_fusion]
    exact (hperm.nodup_iff).mpr (hmapeq ▸ hnodup)
  · intro d
    constructor
    · intro hcond
      have hval := rrfAccum_rrf a 60 dense sparse d hd hs
      rw [if_pos hcond] at hval
      cases hget : alGet? (rrfAccum a 60 dense sparse) d with
      | none => rw [hget] at hval; exact absurd hval (by simp)
      | some v =>
        refine ⟨toFusedResult (d, v), ?_, rfl⟩
        rw [reciprocal_rank_fusion, mem_sortDesc, List.mem_map]
        exact ⟨(d, v), (mem_iff_alGet? _ d v hnodup).mpr hget, rfl⟩
    · rintro ⟨e, he, rfl⟩
      rw [reciprocal_rank_fusion, mem_sortDesc, List.mem_map] at he
      obtain ⟨p, hp, rfl⟩ := he
      have hget : alGet? (rrfAccum a 60 dense sparse) p.1 = some p.2 :=
        (mem_iff_alGet? _ p.1 p.2 hnodup).mp (by simpa using hp)
      have hval := rrfAccum_rrf a 60 dense sparse p.1 hd hs
      rw [hget] at hval
      by_cases hcond : (findRank? p.1 dense).isSome ∨ (findRank? p.1 sparse).isSome
      · exact hcond
      · rw [if_neg hcond] at hval
        exact absurd hval (by simp)

/-- C1 witness: a concrete instance where the document with key
`"chest pain overview"` is ranked 1st dense and 3rd sparse with
`alpha = 1/2`, so its single fused entry scores `0.5/61 + 0.5/63`. -/
theorem rrf_fused_score_is_branch_sum_witness :
    (((([{ text := "chest pain overview", score := 9 }, { text := "doc b", score := 8 }] :
        List SearchResult).map docId).Nodup)
      ∧ ((([{ text := "doc x", score := 5 }, { text := "doc y", score := 4 },
            { text := "chest pain overview", score := 3 }] : List SearchResult).map docId).Nodup))
    ∧ ((∀ e ∈ reciprocal_rank_fusion (1/2) 60
          [{ text := "chest pain overview", score := 9 }, { text := "doc b", score := 8 }]
          [{ text := "doc x", score := 5 }, { text := "doc y", score := 4 },
            { text := "chest pain overview", score := 3 }],
          e.rrf_score = branchContrib (1/2) 60
              [{ text := "chest pain overview", score := 9 }, { text := "doc b", score := 8 }] e.id
            + branchContrib (1 - 1/2) 60
              [{ text := "doc x", score := 5 }, { text := "doc y", score := 4 },
                { text := "chest pain overview", score := 3 }] e.id)
        ∧ ((reciprocal_rank_fusion (1/2) 60
            [{ text := "chest pain overview", score := 9 }, { text := "doc b", score := 8 }]
            [{ text := "doc x", score := 5 }, { text := "doc y", score := 4 },
              { text := "chest pain overview", score := 3 }]).map FusedResult.id).Nodup
        ∧ (∀ d : String,
            ((findRank? d [{ text := "chest pain overview", score := 9 },
                { text := "doc b", score := 8 }]).isSome
              ∨ (findRank? d [{ text := "doc x", score := 5 }, { text := "doc y", score := 4 },
                  { text := "chest pain overview", score := 3 }]).isSome)
            ↔ ∃ e ∈ reciprocal_rank_fusion (1/2) 60
                [{ text := "chest pain overview", score := 9 }, { text := "doc b", score := 8 }]
                [{ text := "doc x", score := 5 }, { text := "doc y", score := 4 },
                  { text := "chest pain overview", score := 3 }], e.id = d)) :=
  ⟨⟨by decide, by decide⟩,
    rrf_fused_score_is_branch_sum (1/2)
      [{ text := "chest pain overview", score := 9 }, { text := "doc b", score := 8 }]
      [{ text := "doc x", score := 5 }, { text := "doc y", score := 4 },
        { text := "chest pain overview", score := 3 }] (by decide) (by decide)⟩

/-- C2: the fusion step is a pure function of the dense results, the sparse
results and `alpha` (same inputs give the identical output order); entries
with equal fused score keep their first-seen order (the stable sort leaves
every equal-score fibre of the accumulated dictionary unchanged); and the
first-seen key order is all dense-branch keys, in dense rank order, followed
by the sparse-only keys in sparse rank order. -/
theorem rrf_deterministic_and_stable_tiebreak (a : ℚ) (dense sparse : List SearchResult) :
    reciprocal_rank_fusion a 60 dense sparse = reciprocal_rank_fusion a 60 dense sparse
    ∧ (∀ c : ℚ,
        (reciprocal_rank_fusion a 60 dense sparse).filter (fun e => decide (e.rrf_score = c))
          = ((rrfAccum a 60 dense sparse).map toFusedResult).filter
              (fun e => decide (e.rrf_score = c)))
    ∧ keysOf (rrfAccum a 60 dense sparse)
        = newKeys (dense.map docId) []
          ++ newKeys (sparse.map docId) (newKeys (dense.map docId) []) :=
  ⟨rfl, fun c => sortDesc_filter c _, rrfAccum_keysOf a 60 dense sparse⟩

theorem should_summarize_iff (th : MemoryThresholds) (m : ConversationMemory) :
    should_summarize_conversation th m = true
      ↔ (m.token_count > th.SINGLE_CHAT_TOKEN_THRESHOLD
          ∨ m.messages.length > th.SINGLE_CHAT_MESSAGE_THRESHOLD) := by
  unfold should_summarize_conversation
  split_ifs with h1 h2
  · simp [h1]
  · simp [h2]
  · simp [h1, h2]

/-- C3: a `ConversationMemory` built during long-term retrieval ends up
summarized (summary attached, `is_summarized = true`) exactly when its token
estimate exceeds `SINGLE_CHAT_TOKEN_THRESHOLD = 2000` or its message count
exceeds `SINGLE_CHAT_MESSAGE_THRESHOLD = 30`; when the thresholds fire the
stored summary is the summarizer's output at target 500, and below both
bounds the memory is returned untouched (never summarized). -/
theorem single_chat_threshold_iff (ssingle : List Message → ℕ → String)
    (conv : RawConversation) :
    ((processConversation defaultThresholds ssingle conv).is_summarized = true
      ↔ (estimate_tokens conv.messages > 2000 ∨ conv.messages.length > 30))
    ∧ ((estimate_tokens conv.messages > 2000 ∨ conv.messages.length > 30) →
        (processConversation defaultThresholds ssingle conv).summary
          = some (ssingle conv.messages 500))
    ∧ (¬ (estimate_tokens conv.messages > 2000 ∨ conv.messages.length > 30) →
        processConversation defaultThresholds ssingle conv
          = mkConversationMemory conv.id conv.session_id conv.messages conv.created_at) := by
  have hcond : should_summarize_conversation defaultThresholds
      (mkConversationMemory conv.id conv.session_id conv.messages conv.created_at) = true
      ↔ (estimate_tokens conv.messages > 2000 ∨ conv.messages.length > 30) := by
    rw [should_summarize_iff]
    simp [mkConversationMemory, defaultThresholds]
  refine ⟨?_, ?_, ?_⟩
  · dsimp only [processConversation]
    split_ifs with h
    · simpa using hcond.mp h
    · simp only [mkConversationMemory, Bool.false_eq_true, false_iff]
      intro hor
      exact h (hcond.mpr hor)
  · intro hor
    dsimp only [processConversation]
    rw [if_pos (hcond.mpr hor)]
    rfl
  · intro hor
    dsimp only [processConversation]
    rw [if_neg (fun h => hor (hcond.mp h))]

/-- C3 witness: the spec scenario — 35 messages (over the 30-message bound)
with tiny character count is summarized solely by the message-count rule. -/
theorem single_chat_threshold_iff_witness :
    (processConversation defaultThresholds (fun _ _ => "scn")
        ⟨"c9", "s9", List.replicate 35 ⟨"user", "hi", "t"⟩, 5⟩).is_summarized = true :=
  (single_chat_threshold_iff (fun _ _ => "scn")
      ⟨"c9", "s9", List.replicate 35 ⟨"user", "hi", "t"⟩, 5⟩).1.mpr
    (Or.inr (by decide))

theorem le_joinSep_length (sep : String) (x : String) (xs : List String) :
    x.length ≤ (joinSep sep (x :: xs)).length := by
  cases xs with
  | nil => simp [joinSep]
  | cons y ys =>
    have : joinSep sep (x :: y :: ys) = x ++ sep ++ joinSep sep (y :: ys) := rfl
    rw [this, String.length_append, String.length_append]
    omega

theorem joinSep_ne_empty (sep : String) (x : String) (xs : List String) (hx : 0 < x.length) :
    joinSep sep (x :: xs) ≠ "" := by
  intro h
  have hle := le_joinSep_length sep x xs
  rw [h, String.length_empty] at hle
  omega

theorem fallback_summary_ne_empty (messages : List Message) :
    fallback_summary messages ≠ "" := by
  unfold fallback_summary
  dsimp only
  split_ifs with h1 h2
  · decide
  · exact joinSep_ne_empty _ _ _ (by decide)
  · exact joinSep_ne_empty _ _ _ (by decide)

/-- C6: when the LLM call raises, `summarize_conversation` returns the
deterministic extractive fallback built from the first user-turn excerpts
(never propagating the error), the fallback is always a non-empty string, and
the memory manager still flips `is_summarized` to true on a conversation over
threshold, so a summarizer failure never fails the memory fetch. -/
theorem summarizer_failure_fallback (llm : String → String → Except String String)
    (err : String) (hllm : ∀ sp up, llm sp up = Except.error err) :
    (∀ (messages : List Message) (target_length : ℕ),
        summarize_conversation llm messages target_length = fallback_summary messages)
    ∧ (∀ messages : List Message, fallback_summary messages ≠ "")
    ∧ (∀ conv : RawConversation,
        should_summarize_conversation defaultThresholds
          (mkConversationMemory conv.id conv.session_id conv.messages conv.created_at) = true →
        (processConversation defaultThresholds
            (summarize_conversation llm) conv).is_summarized = true) := by
  refine ⟨?_, fallback_summary_ne_empty, ?_⟩
  · intro messages target_length
    unfold summarize_conversation
    dsimp only
    rw [hllm]
  · intro conv h
    unfold processConversation
    rw [if_pos h]

/-- C6 witness: a concrete always-failing LLM client. -/
theorem summarizer_failure_fallback_witness :
    summarize_conversation (fun _ _ => Except.error "timeout")
        [⟨"user", "I have chest pain", "t1"⟩] 500
      = fallback_summary [⟨"user", "I have chest pain", "t1"⟩]
    ∧ fallback_summary [⟨"user", "I have chest pain", "t1"⟩] ≠ ""
    ∧ (processConversation defaultThresholds
        (summarize_conversation (fun _ _ => Except.error "timeout"))
        ⟨"c1", "s1", List.replicate 35 ⟨"user", "hi", "t"⟩, 0⟩).is_summarized = true :=
  ⟨(summarizer_failure_fallback _ "timeout" (fun _ _ => rfl)).1 _ 500,
   (summarizer_failure_fallback _ "timeout" (fun _ _ => rfl)).2.1 _,
   (summarizer_failure_fallback _ "timeout" (fun _ _ => rfl)).2.2 _ (by decide)⟩

/-- C4 counterexample: with 3 conversations whose older (post-recent) entry
holds no messages and no summary, `_compress_memory` returns only the 2 most
recent items — no synthetic `"compressed_memory"` entry is appended, refuting
the claim that 3 or more conversations always yield recent-2 plus exactly one
synthetic entry. -/
theorem compress_memory_no_synthetic_entry_cex :
    compress_memory defaultThresholds (fun _ _ => "LONGITUDINAL SUMMARY") 0
        [mkConversationMemory "c1" "s1" [⟨"user", "hello", ""⟩] 30,
         mkConversationMemory "c2" "s2" [⟨"user", "hi", ""⟩] 20,
         mkConversationMemory "c3" "s3" [] 10]
      = [mkConversationMemory "c1" "s1" [⟨"user", "hello", ""⟩] 30,
         mkConversationMemory "c2" "s2" [⟨"user", "hi", ""⟩] 20]
    ∧ ∀ e ∈ compress_memory defaultThresholds (fun _ _ => "LONGITUDINAL SUMMARY") 0
        [mkConversationMemory "c1" "s1" [⟨"user", "hello", ""⟩] 30,
         mkConversationMemory "c2" "s2" [⟨"user", "hi", ""⟩] 20,
         mkConversationMemory "c3" "s3" [] 10],
        e.conversation_id ≠ "compressed_memory" := by
  constructor
  · rfl
  · decide

/-- C4 (amended): total-memory compaction runs only when the summed token
estimates exceed `TOTAL_MEMORY_TOKEN_THRESHOLD = 8000`; `_compress_memory`
returns its input unchanged for at most 2 conversations; for 3 or more it
returns the 2 most recent followed by exactly one synthetic
`"compressed_memory"` entry carrying the single longitudinal summary of the
older entries at target `TOTAL_MEMORY_SUMMARY_TARGET = 2000` — provided the
older entries contribute at least one message or non-empty summary;
otherwise (all older entries empty) only the 2 most recent are returned. -/
theorem compress_memory_amended (ssingle smulti : List Message → ℕ → String) (now : ℕ)
    (convs : List RawConversation) (items : List ConversationMemory) :
    (((convs.map (processConversation defaultThresholds ssingle)).map (·.token_count)).sum
        ≤ 8000 →
      get_long_term_memory defaultThresholds ssingle smulti now convs
        = convs.map (processConversation defaultThresholds ssingle))
    ∧ (items.length ≤ 2 → compress_memory defaultThresholds smulti now items = items)
    ∧ (3 ≤ items.length → olderMessages (items.drop 2) ≠ [] →
        compress_memory defaultThresholds smulti now items
          = items.take 2
            ++ [⟨"compressed_memory", "multiple", [],
                (((items.drop 2).head?).map (·.created_at)).getD now, true,
                some (smulti (olderMessages (items.drop 2)) 2000),
                (smulti (olderMessages (items.drop 2)) 2000).length / 4⟩])
    ∧ (3 ≤ items.length → olderMessages (items.drop 2) = [] →
        compress_memory defaultThresholds smulti now items = items.take 2) := by
  refine ⟨?_, ?_, ?_, ?_⟩
  · intro h
    dsimp only [get_long_term_memory]
    rw [if_neg (by simpa [defaultThresholds] using Nat.not_lt.mpr h)]
  · intro h
    dsimp only [compress_memory]
    rw [if_pos h]
  · intro h3 hne
    dsimp only [compress_memory]
    rw [if_neg (by omega), if_pos (by simpa [List.isEmpty_iff] using hne)]
    rfl
  · intro h3 hempty
    dsimp only [compress_memory]
    rw [if_neg (by omega), if_neg (by simp [List.isEmpty_iff, hempty])]

/-- C4 witness: concrete runs exercising both compaction shapes. -/
theorem compress_memory_amended_witness :
    compress_memory defaultThresholds (fun _ _ => "LS") 0
        [mkConversationMemory "c1" "s1" [⟨"user", "hello", ""⟩] 30,
         mkConversationMemory "c2" "s2" [⟨"user", "hi", ""⟩] 20]
      = [mkConversationMemory "c1" "s1" [⟨"user", "hello", ""⟩] 30,
         mkConversationMemory "c2" "s2" [⟨"user", "hi", ""⟩] 20]
    ∧ compress_memory defaultThresholds (fun _ _ => "LS") 0
        [mkConversationMemory "c1" "s1" [⟨"user", "hello", ""⟩] 30,
         mkConversationMemory "c2" "s2" [⟨"user", "hi", ""⟩] 20,
         mkConversationMemory "c3" "s3" [⟨"user", "old issue", ""⟩] 10]
      = [mkConversationMemory "c1" "s1" [⟨"user", "hello", ""⟩] 30,
         mkConversationMemory "c2" "s2" [⟨"user", "hi", ""⟩] 20]
        ++ [⟨"compressed_memory", "multiple", [],
            (((([mkConversationMemory "c1" "s1" [⟨"user", "hello", ""⟩] 30,
                 mkConversationMemory "c2" "s2" [⟨"user", "hi", ""⟩] 20,
                 mkConversationMemory "c3" "s3" [⟨"user", "old issue", ""⟩] 10].drop 2)).head?).map
                (·.created_at)).getD 0, true,
            some ((fun _ _ => "LS") (olderMessages
                ([mkConversationMemory "c1" "s1" [⟨"user", "hello", ""⟩] 30,
                  mkConversationMemory "c2" "s2" [⟨"user", "hi", ""⟩] 20,
                  mkConversationMemory "c3" "s3" [⟨"user", "old issue", ""⟩] 10].drop 2)) 2000),
            ((fun _ _ => "LS") (olderMessages
                ([mkConversationMemory "c1" "s1" [⟨"user", "hello", ""⟩] 30,
                  mkConversationMemory "c2" "s2" [⟨"user", "hi", ""⟩] 20,
                  mkConversationMemory "c3" "s3" [⟨"user", "old issue", ""⟩] 10].drop 2)) 2000).length / 4⟩] :=
  ⟨(compress_memory_amended (fun _ _ => "LS") (fun _ _ => "LS") 0 []
      [mkConversationMemory "c1" "s1" [⟨"user", "hello", ""⟩] 30,
       mkConversationMemory "c2" "s2" [⟨"user", "hi", ""⟩] 20]).2.1 (by decide),
   (compress_memory_amended (fun _ _ => "LS") (fun _ _ => "LS") 0 []
      [mkConversationMemory "c1" "s1" [⟨"user", "hello", ""⟩] 30,
       mkConversationMemory "c2" "s2" [⟨"user", "hi", ""⟩] 20,
       mkConversationMemory "c3" "s3" [⟨"user", "old issue", ""⟩] 10]).2.2.1 (by decide) (by decide)⟩

theorem processConversation_token_le (ssingle : List Message → ℕ → String)
    (hS : ∀ ms t, (ssingle ms t).length ≤ 4 * t) (conv : RawConversation) :
    (processConversation defaultThresholds ssingle conv).token_count ≤ 2000 := by
  dsimp only [processConversation]
  split_ifs with h
  · have hlen := hS conv.messages defaultThresholds.SINGLE_CHAT_SUMMARY_TARGET
    simp only [defaultThresholds] at hlen ⊢
    omega
  · rw [should_summarize_iff] at h
    push_neg at h
    exact h.1

theorem compress_memory_sum_le (smulti : List Message → ℕ → String)
    (hM : ∀ ms t, (smulti ms t).length ≤ 4 * t) (now : ℕ)
    (items : List ConversationMemory) (hitems : ∀ m ∈ items, m.token_count ≤ 2000) :
    ((compress_memory defaultThresholds smulti now items).map (·.token_count)).sum ≤ 8000 := by
  have htakesum : ((items.take 2).map (·.token_count)).sum ≤ 4000 := by
    have hall : ∀ x ∈ (items.take 2).map (·.token_count), x ≤ 2000 := by
      intro x hx
      obtain ⟨m, hm, rfl⟩ := List.mem_map.mp hx
      exact hitems m (List.take_subset 2 items hm)
    have hlen : ((items.take 2).map (·.token_count)).length ≤ 2 := by
      simp [List.length_take]
    calc ((items.take 2).map (·.token_count)).sum
        ≤ ((items.take 2).map (·.token_count)).length • 2000 :=
          List.sum_le_card_nsmul _ _ hall
      _ = ((items.take 2).map (·.token_count)).length * 2000 := by simp [nsmul_eq_mul]
      _ ≤ 2 * 2000 := Nat.mul_le_mul_right _ hlen
      _ ≤ 4000 := by norm_num
  dsimp only [compress_memory]
  split_ifs with h1 h2
  · have hall : ∀ x ∈ items.map (·.token_count), x ≤ 2000 := by
      intro x hx
      obtain ⟨m, hm, rfl⟩ := List.mem_map.mp hx
      exact hitems m hm
    calc (items.map (·.token_count)).sum
        ≤ (items.map (·.token_count)).length • 2000 := List.sum_le_card_nsmul _ _ hall
      _ = items.length * 2000 := by simp [smul_eq_mul]
      _ ≤ 2 * 2000 := Nat.mul_le_mul_right _ h1
      _ ≤ 8000 := by norm_num
  · rw [List.map_append, List.sum_append]
    have hcomp := hM (olderMessages (items.drop 2)) defaultThresholds.TOTAL_MEMORY_SUMMARY_TARGET
    simp only [defaultThresholds] at hcomp
    simp only [List.map_cons, List.map_nil, List.sum_cons, List.sum_nil, defaultThresholds]
    omega
  · exact le_trans htakesum (by norm_num)

/-- C9: under the external summarizer contract that a summary targeted at `t`
tokens holds at most `4*t` characters (so at most `t` estimated tokens), the
total token estimate of the list returned by `get_long_term_memory` never
exceeds `TOTAL_MEMORY_TOKEN_THRESHOLD = 8000` plus the contribution of the
single most recent conversation (in fact it stays within 8000 outright). -/
theorem total_memory_token_bound (ssingle smulti : List Message → ℕ → String)
    (hS : ∀ ms t, (ssingle ms t).length ≤ 4 * t)
    (hM : ∀ ms t, (smulti ms t).length ≤ 4 * t)
    (now : ℕ) (convs : List RawConversation) :
    ((get_long_term_memory defaultThresholds ssingle smulti now convs).map (·.token_count)).sum
      ≤ 8000
        + ((((get_long_term_memory defaultThresholds ssingle smulti now convs).head?).map
            (·.token_count)).getD 0) := by
  have hmain : ((get_long_term_memory defaultThresholds ssingle smulti now convs).map
      (·.token_count)).sum ≤ 8000 := by
    dsimp only [get_long_term_memory]
    split_ifs with h
    · apply compress_memory_sum_le smulti hM now
      intro m hm
      obtain ⟨conv, hconv, rfl⟩ := List.mem_map.mp hm
      exact processConversation_token_le ssingle hS conv
    · exact Nat.le_of_not_lt h
  exact le_trans hmain (Nat.le_add_right 8000 _)

/-- C9 witness: a concrete constant summarizer satisfying the length
contract. -/
theorem total_memory_token_bound_witness :
    ((get_long_term_memory defaultThresholds (fun _ _ => "") (fun _ _ => "") 7
        [⟨"c1", "s1", [⟨"user", "I have chest pain", "t"⟩], 3⟩]).map (·.token_count)).sum
      ≤ 8000
        + ((((get_long_term_memory defaultThresholds (fun _ _ => "") (fun _ _ => "") 7
            [⟨"c1", "s1", [⟨"user", "I have chest pain", "t"⟩], 3⟩]).head?).map
            (·.token_count)).getD 0) :=
  total_memory_token_bound (fun _ _ => "") (fun _ _ => "")
    (fun _ _ => by simp) (fun _ _ => by simp) 7
    [⟨"c1", "s1", [⟨"user", "I have chest pain", "t"⟩], 3⟩]

/-- C5: an embedding-service error or a vector-index error propagates out of
`retrieve` unchanged (the sparse branch is never substituted), while a
missing lexical index (`bm25_index is None`) is not an error: `retrieve`
succeeds and returns the post-processed fusion of the dense results with an
empty sparse branch. -/
theorem retrieve_error_propagation (settings : Settings)
    (embed : String → Except String (List ℚ))
    (vsearch : List ℚ → ℕ → List (String × String) → Except String (List SearchResult))
    (bm25_scores : List (List String) → List String → List ℚ)
    (co : String → List String → ℕ → Except String (List (ℕ × ℚ)))
    (st : RetrieverState) (query : String) (top_k? : Option ℕ)
    (filters : List (String × String)) (rerank : Bool) :
    (∀ err, embed query = Except.error err →
        retrieve settings embed vsearch bm25_scores co st query top_k? filters rerank
          = Except.error err)
    ∧ (∀ v err, embed query = Except.ok v →
        vsearch v ((orDefault top_k? settings.top_k_retrieval) * 2) filters = Except.error err →
        retrieve settings embed vsearch bm25_scores co st query top_k? filters rerank
          = Except.error err)
    ∧ (∀ v dense_results, embed query = Except.ok v →
        vsearch v ((orDefault top_k? settings.top_k_retrieval) * 2) filters
            = Except.ok dense_results →
        st.bm25_index = none →
        retrieve settings embed vsearch bm25_scores co st query top_k? filters rerank
          = Except.ok (postFusion co settings query rerank
              (orDefault top_k? settings.top_k_retrieval)
              (reciprocal_rank_fusion st.alpha 60 dense_results []))) := by
  refine ⟨?_, ?_, ?_⟩
  · intro err h
    simp [retrieve, h]
  · intro v err h1 h2
    simp [retrieve, h1, h2]
  · intro v dense_results h1 h2 h3
    simp [retrieve, h1, h2, sparseBranch, h3]

/-- C5 witness: concrete failing embedding service, failing vector index and
empty lexical index. -/
theorem retrieve_error_propagation_witness :
    retrieve {} (fun _ => Except.error "embedding service down")
        (fun _ _ _ => Except.ok []) (fun _ _ => []) (fun _ _ _ => Except.ok [])
        {} "chest pain" none [] true
      = Except.error "embedding service down"
    ∧ retrieve {} (fun _ => Except.ok [1])
        (fun _ _ _ => Except.error "vector index down") (fun _ _ => [])
        (fun _ _ _ => Except.ok []) {} "chest pain" none [] true
      = Except.error "vector index down"
    ∧ retrieve {} (fun _ => Except.ok [1])
        (fun _ _ _ => Except.ok [{ id := some "d1", text := "doc one text", score := 3 }])
        (fun _ _ => []) (fun _ _ _ => Except.ok []) {} "chest pain" none [] false
      = Except.ok (postFusion (fun _ _ _ => Except.ok []) {} "chest pain" false 10
          (reciprocal_rank_fusion (1 / 2) 60
            [{ id := some "d1", text := "doc one text", score := 3 }] [])) :=
  ⟨(retrieve_error_propagation {} (fun _ => Except.error "embedding service down")
      (fun _ _ _ => Except.ok []) (fun _ _ => []) (fun _ _ _ => Except.ok [])
      {} "chest pain" none [] true).1 "embedding service down" rfl,
   (retrieve_error_propagation {} (fun _ => Except.ok [1])
      (fun _ _ _ => Except.error "vector index down") (fun _ _ => [])
      (fun _ _ _ => Except.ok []) {} "chest pain" none [] true).2.1 [1]
      "vector index down" rfl rfl,
   (retrieve_error_propagation {} (fun _ => Except.ok [1])
      (fun _ _ _ => Except.ok [{ id := some "d1", text := "doc one text", score := 3 }])
      (fun _ _ => []) (fun _ _ _ => Except.ok []) {} "chest pain" none [] false).2.2 [1]
      [{ id := some "d1", text := "doc one text", score := 3 }] rfl rfl rfl⟩

/-- C7: when the reranking service fails (every call raises), `retrieve` with
`rerank = true` and a configured key still succeeds and returns the fused RRF
ordering (truncated by the final slice); the failure is never surfaced. -/
theorem rerank_failure_silent_fallback (settings : Settings)
    (embed : String → Except String (List ℚ))
    (vsearch : List ℚ → ℕ → List (String × String) → Except String (List SearchResult))
    (bm25_scores : List (List String) → List String → List ℚ)
    (co : String → List String → ℕ → Except String (List (ℕ × ℚ)))
    (st : RetrieverState) (query : String) (top_k? : Option ℕ)
    (filters : List (String × String))
    (v : List ℚ) (dense_results : List SearchResult) (err : String)
    (hkey : optTruthy settings.cohere_api_key = true)
    (hemb : embed query = Except.ok v)
    (hvs : vsearch v ((orDefault top_k? settings.top_k_retrieval) * 2) filters
        = Except.ok dense_results)
    (hco : ∀ q docs n, co q docs n = Except.error err) :
    retrieve settings embed vsearch bm25_scores co st query top_k? filters true
      = Except.ok (((reciprocal_rank_fusion st.alpha 60 dense_results
          (sparseBranch bm25_scores st query (orDefault top_k? settings.top_k_retrieval))).take
            (orDefault top_k? settings.top_k_retrieval)).take settings.rerank_top_k) := by
  simp [retrieve, hemb, hvs, postFusion, hkey, rerankStep, hco]

/-- C7 witness: a concrete always-failing reranking service. -/
theorem rerank_failure_silent_fallback_witness :
    retrieve { cohere_api_key := some "key" } (fun _ => Except.ok [1])
        (fun _ _ _ => Except.ok [{ id := some "d1", text := "doc one text", score := 3 }])
        (fun _ _ => []) (fun _ _ _ => Except.error "cohere timeout")
        {} "chest pain" none [] true
      = Except.ok (((reciprocal_rank_fusion (1 / 2) 60
          [{ id := some "d1", text := "doc one text", score := 3 }]
          (sparseBranch (fun _ _ => []) {} "chest pain" 10)).take 10).take 5) :=
  rerank_failure_silent_fallback { cohere_api_key := some "key" } (fun _ => Except.ok [1])
    (fun _ _ _ => Except.ok [{ id := some "d1", text := "doc one text", score := 3 }])
    (fun _ _ => []) (fun _ _ _ => Except.error "cohere timeout")
    {} "chest pain" none [] [1]
    [{ id := some "d1", text := "doc one text", score := 3 }] "cohere timeout"
    rfl rfl rfl (fun _ _ _ => rfl)

theorem getD_mem_or_eq {α : Type} (l : List α) (i : ℕ) (d : α) :
    l.getD i d ∈ l ∨ l.getD i d = d := by
  induction l generalizing i with
  | nil => right; simp
  | cons x t ih =>
    cases i with
    | zero => left; simp
    | succ n =>
      rcases ih n with h | h
      · left
        simp only [List.getD_cons_succ]
        exact List.mem_cons_of_mem x h
      · right
        simpa using h

/-- C10 counterexample: two successive `index_documents` calls. The second
call replaces `self.documents` and rebuilds the BM25 index from its own batch
alone, so the document of the first call is no longer in the lexical corpus —
even though it is still accumulated in the vector store. -/
theorem lexical_index_drops_earlier_batches_cex :
    index_documents (fun ds => Except.ok (ds.map (fun _ => []))) {} ["aspirin dosage guide"]
      = Except.ok ⟨["aspirin dosage guide"], ["aspirin dosage guide"],
          some [["aspirin", "dosage", "guide"]], 1 / 2⟩
    ∧ index_documents (fun ds => Except.ok (ds.map (fun _ => [])))
        ⟨["aspirin dosage guide"], ["aspirin dosage guide"],
          some [["aspirin", "dosage", "guide"]], 1 / 2⟩ ["chest pain overview"]
      = Except.ok ⟨["aspirin dosage guide", "chest pain overview"], ["chest pain overview"],
          some [["chest", "pain", "overview"]], 1 / 2⟩
    ∧ "aspirin dosage guide"
        ∉ (⟨["aspirin dosage guide", "chest pain overview"], ["chest pain overview"],
            some [["chest", "pain", "overview"]], 1 / 2⟩ : RetrieverState).documents
    ∧ "aspirin dosage guide"
        ∈ (⟨["aspirin dosage guide", "chest pain overview"], ["chest pain overview"],
            some [["chest", "pain", "overview"]], 1 / 2⟩ : RetrieverState).vstoreTexts := by
  exact ⟨by rfl, by rfl, by decide, by decide⟩

/-- C10 (amended): after a successful `index_documents` call the lexical
corpus is exactly the documents of that call (earlier batches are dropped
from it, remaining only in the vector store, which accumulates), and every
text produced by the sparse branch afterwards comes from that latest batch
(or is the out-of-range placeholder `""`). -/
theorem lexical_index_covers_latest_call
    (embed_texts : List String → Except String (List (List ℚ)))
    (st st2 : RetrieverState) (documents : List String)
    (h : index_documents embed_texts st documents = Except.ok st2) :
    st2.documents = documents
    ∧ st2.bm25_index = some (documents.map preprocess_text)
    ∧ st2.vstoreTexts = st.vstoreTexts ++ documents
    ∧ ∀ (b : List (List String) → List String → List ℚ) (q : String) (tk : ℕ),
        ∀ r ∈ sparseBranch b st2 q tk, r.text ∈ documents ∨ r.text = "" := by
  have hst2 : st2 = { st with
      vstoreTexts := st.vstoreTexts ++ documents,
      documents := documents,
      bm25_index := some (documents.map preprocess_text) } := by
    cases hemb : embed_texts documents with
    | error e => rw [index_documents, hemb] at h; exact absurd h (by simp)
    | ok vecs =>
      rw [index_documents, hemb] at h
      exact (Except.ok.inj h).symm
  subst hst2
  refine ⟨rfl, rfl, rfl, ?_⟩
  intro b q tk r hr
  dsimp only [sparseBranch] at hr
  rw [List.mem_map] at hr
  obtain ⟨i, hi, rfl⟩ := hr
  exact getD_mem_or_eq documents i ""

/-- C10 witness: the amended statement at the concrete second call of the
counterexample run. -/
theorem lexical_index_covers_latest_call_witness :
    (⟨["aspirin dosage guide", "chest pain overview"], ["chest pain overview"],
        some [["chest", "pain", "overview"]], 1 / 2⟩ : RetrieverState).documents
      = ["chest pain overview"]
    ∧ (⟨["aspirin dosage guide", "chest pain overview"], ["chest pain overview"],
        some [["chest", "pain", "overview"]], 1 / 2⟩ : RetrieverState).bm25_index
      = some (["chest pain overview"].map preprocess_text)
    ∧ (⟨["aspirin dosage guide", "chest pain overview"], ["chest pain overview"],
        some [["chest", "pain", "overview"]], 1 / 2⟩ : RetrieverState).vstoreTexts
      = (⟨["aspirin dosage guide"], ["aspirin dosage guide"],
          some [["aspirin", "dosage", "guide"]], 1 / 2⟩ : RetrieverState).vstoreTexts
        ++ ["chest pain overview"]
    ∧ ∀ (b : List (List String) → List String → List ℚ) (q : String) (tk : ℕ),
        ∀ r ∈ sparseBranch b
            (⟨["aspirin dosage guide", "chest pain overview"], ["chest pain overview"],
              some [["chest", "pain", "overview"]], 1 / 2⟩ : RetrieverState) q tk,
          r.text ∈ ["chest pain overview"] ∨ r.text = "" :=
  lexical_index_covers_latest_call (fun ds => Except.ok (ds.map (fun _ => [])))
    ⟨["aspirin dosage guide"], ["aspirin dosage guide"],
      some [["aspirin", "dosage", "guide"]], 1 / 2⟩
    ⟨["aspirin dosage guide", "chest pain overview"], ["chest pain overview"],
      some [["chest", "pain", "overview"]], 1 / 2⟩
    ["chest pain overview"] rfl

theorem nodup_lt_length_le (l : List ℕ) (n : ℕ) (hnd : l.Nodup) (hlt : ∀ x ∈ l, x < n) :
    l.length ≤ n := by
  classical
  have h1 : l.toFinset.card = l.length := List.toFinset_card_of_nodup hnd
  have h2 : l.toFinset ⊆ Finset.range n := by
    intro x hx
    exact Finset.mem_range.mpr (hlt x (List.mem_toFinset.mp hx))
  have h3 := Finset.card_le_card h2
  rw [h1, Finset.card_range] at h3
  exact h3

theorem rrf_rerank_score_none (a : ℚ) (k : ℕ) (dense sparse : List SearchResult) :
    ∀ e ∈ reciprocal_rank_fusion a k dense sparse, e.rerank_score = none := by
  intro e he
  rw [reciprocal_rank_fusion, mem_sortDesc, List.mem_map] at he
  obtain ⟨p, _, rfl⟩ := he
  rfl

theorem applyRerankResp_ok (resp : List (ℕ × ℚ)) :
    ∀ (cur : List FusedResult), (∀ p ∈ resp, p.1 < cur.length) →
    ∃ fin, applyRerankResp cur resp = Except.ok fin
      ∧ fin.length = cur.length
      ∧ (∀ j, j ∉ resp.map Prod.fst → fin[j]? = cur[j]?)
      ∧ ((resp.map Prod.fst).Nodup →
          ∀ p ∈ resp, fin[p.1]? = (cur[p.1]?).map
            (fun e => { e with rerank_score := some p.2 })) := by
  induction resp with
  | nil =>
    intro cur _
    exact ⟨cur, rfl, rfl, fun j _ => rfl, fun _ p hp => absurd hp (List.not_mem_nil p)⟩
  | cons q rest ih =>
    intro cur hvalid
    obtain ⟨i, s⟩ := q
    have hi : i < cur.length := hvalid (i, s) (List.mem_cons_self _ _)
    have hget : cur[i]? = some cur[i] := List.getElem?_eq_getElem hi
    have hvalid2 : ∀ p ∈ rest, p.1 < (cur.set i { cur[i] with rerank_score := some s }).length := by
      intro p hp
      rw [List.length_set]
      exact hvalid p (List.mem_cons_of_mem _ hp)
    obtain ⟨fin, hfin, hlen, hframe, hchar⟩ :=
      ih (cur.set i { cur[i] with rerank_score := some s }) hvalid2
    refine ⟨fin, ?_, ?_, ?_, ?_⟩
    · simp only [applyRerankResp, hget]
      exact hfin
    · rw [hlen, List.length_set]
    · intro j hj
      rw [List.map_cons, List.mem_cons] at hj
      push_neg at hj
      obtain ⟨hji, hjrest⟩ := hj
      rw [hframe j hjrest, List.getElem?_set_ne (fun h => hji h.symm)]
    · intro hnd p hp
      rw [List.map_cons, List.nodup_cons] at hnd
      obtain ⟨hni, hndrest⟩ := hnd
      rcases List.mem_cons.mp hp with rfl | hp
      · rw [hframe i hni, List.getElem?_set_self hi, hget]
        rfl
      · have hne : i ≠ p.1 := by
          intro h
          exact hni (List.mem_map.mpr ⟨p, hp, h.symm⟩)
        rw [hchar hndrest p hp, List.getElem?_set_ne hne]

theorem rerankStep_cases (co : String → List String → ℕ → Except String (List (ℕ × ℚ)))
    (settings : Settings) (query : String) (results : List FusedResult)
    (hco : ∀ q docs n resp, co q docs n = Except.ok resp →
        resp.Pairwise (fun p1 p2 => p2.2 ≤ p1.2) ∧ (resp.map Prod.fst).Nodup
          ∧ ∀ p ∈ resp, p.1 < docs.length) :
    rerankStep co settings query results = results
    ∨ ((rerankStep co settings query results).length ≤ results.length
        ∧ (rerankStep co settings query results).Pairwise
            (fun e1 e2 => effScore e2 ≤ effScore e1)) := by
  cases hcall : co query (results.map (·.text)) settings.rerank_top_k with
  | error e =>
    left
    simp [rerankStep, hcall]
  | ok resp =>
    obtain ⟨hsort, hnd, hvalid⟩ := hco _ _ _ _ hcall
    rw [List.length_map] at hvalid
    obtain ⟨fin, hfin, hlen, hframe, hchar⟩ := applyRerankResp_ok resp results hvalid
    right
    have hstep : rerankStep co settings query results
        = resp.map (fun p => fin.getD p.1 default) := by
      simp [rerankStep, hcall, hfin]
    rw [hstep]
    constructor
    · rw [List.length_map]
      have hb : ∀ x ∈ resp.map Prod.fst, x < results.length := by
        intro x hx
        obtain ⟨p, hp, rfl⟩ := List.mem_map.mp hx
        exact hvalid p hp
      simpa using nodup_lt_length_le (resp.map Prod.fst) results.length hnd hb
    · have heff : ∀ p ∈ resp, effScore (fin.getD p.1 default) = p.2 := by
        intro p hp
        have hg := hchar hnd p hp
        have hi : p.1 < results.length := hvalid p hp
        rw [List.getElem?_eq_getElem hi] at hg
        rw [List.getD_eq_getElem?_getD, hg]
        simp [effScore]
      rw [List.pairwise_map]
      refine hsort.imp_of_mem ?_
      intro p1 p2 hp1 hp2 hle
      rw [heff p1 hp1, heff p2 hp2]
      exact hle

theorem pairwise_eff_of_rrf (l : List FusedResult)
    (hnone : ∀ e ∈ l, e.rerank_score = none)
    (h : l.Pairwise (fun a b => b.rrf_score ≤ a.rrf_score)) :
    l.Pairwise (fun e1 e2 => effScore e2 ≤ effScore e1) := by
  refine h.imp_of_mem ?_
  intro a b ha hb hle
  simp only [effScore, hnone a ha, hnone b hb, Option.getD_none]
  exact hle

theorem postFusion_bounded_sorted
    (co : String → List String → ℕ → Except String (List (ℕ × ℚ)))
    (settings : Settings) (query : String) (rerank : Bool) (tk : ℕ)
    (fused : List FusedResult)
    (hco : ∀ q docs n resp, co q docs n = Except.ok resp →
        resp.Pairwise (fun p1 p2 => p2.2 ≤ p1.2) ∧ (resp.map Prod.fst).Nodup
          ∧ ∀ p ∈ resp, p.1 < docs.length)
    (hsorted : fused.Pairwise (fun a b => b.rrf_score ≤ a.rrf_score))
    (hnone : ∀ e ∈ fused, e.rerank_score = none) :
    (postFusion co settings query rerank tk fused).length ≤ tk
    ∧ (rerank = true → (postFusion co settings query rerank tk fused).length
        ≤ settings.rerank_top_k)
    ∧ (postFusion co settings query rerank tk fused).Pairwise
        (fun e1 e2 => effScore e2 ≤ effScore e1) := by
  dsimp only [postFusion]
  have hbl : (fused.take tk).length ≤ tk := by
    rw [List.length_take]; exact min_le_left _ _
  have hbs : (fused.take tk).Pairwise (fun a b => b.rrf_score ≤ a.rrf_score) :=
    hsorted.sublist (List.take_sublist _ _)
  have hbn : ∀ e ∈ fused.take tk, e.rerank_score = none :=
    fun e he => hnone e (List.take_subset _ _ he)
  have hbeff := pairwise_eff_of_rrf (fused.take tk) hbn hbs
  by_cases hr : (rerank && optTruthy settings.cohere_api_key) = true
  · have hrt : rerank = true := by
      revert hr
      cases rerank <;> simp
    subst hrt
    rw [if_pos hr, if_pos rfl]
    rcases rerankStep_cases co settings query (fused.take tk) hco with heq | ⟨hlen2, hsor2⟩
    · rw [heq]
      refine ⟨?_, fun _ => ?_, ?_⟩
      · rw [List.length_take]
        exact le_trans (min_le_right _ _) hbl
      · rw [List.length_take]
        exact min_le_left _ _
      · exact hbeff.sublist (List.take_sublist _ _)
    · refine ⟨?_, fun _ => ?_, ?_⟩
      · rw [List.length_take]
        exact le_trans (min_le_right _ _) (le_trans hlen2 hbl)
      · rw [List.length_take]
        exact min_le_left _ _
      · exact hsor2.sublist (List.take_sublist _ _)
  · rw [if_neg hr]
    cases rerank with
    | true =>
      rw [if_pos rfl]
      refine ⟨?_, fun _ => ?_, ?_⟩
      · rw [List.length_take]
        exact le_trans (min_le_right _ _) hbl
      · rw [List.length_take]
        exact min_le_left _ _
      · exact hbeff.sublist (List.take_sublist _ _)
    | false =>
      rw [if_neg (by simp)]
      refine ⟨?_, fun h => absurd h (by simp), ?_⟩
      · rw [List.length_take]
        exact le_trans (min_le_right _ _) hbl
      · exact hbeff.sublist (List.take_sublist _ _)

/-- C8 counterexample: the claim is refuted at `top_k = 0`. Python resolves
`top_k or settings.top_k_retrieval`, so an explicit `top_k = 0` falls back to
the configured default and `retrieve` returns one result on a one-document
corpus — its length exceeds the requested `top_k = 0`. -/
theorem retrieve_top_k_zero_cex :
    (retrieve {} (fun _ => Except.ok [1])
        (fun _ _ _ => Except.ok [{ id := some "d1", text := "t1", score := 3 }])
        (fun _ _ => []) (fun _ _ _ => Except.ok [])
        {} "q" (some 0) [] false).map List.length = Except.ok 1
    ∧ ¬ ((1 : ℕ) ≤ 0) :=
  ⟨by rfl, by decide⟩

/-- C8 (amended): under the reranking-service contract (responses sorted
best-first with distinct in-range indices), every list returned by
`retrieve` is ordered best-first by its effective score (rerank score when
attached, fused RRF score otherwise), has length at most the effective
`top_k` — the requested `top_k` when provided and non-zero, else the
configured `top_k_retrieval` (Python or-coalescing) — and at most the
configured `rerank_top_k` whenever `rerank = true`. -/
theorem retrieve_bounded_and_sorted (settings : Settings)
    (embed : String → Except String (List ℚ))
    (vsearch : List ℚ → ℕ → List (String × String) → Except String (List SearchResult))
    (bm25_scores : List (List String) → List String → List ℚ)
    (co : String → List String → ℕ → Except String (List (ℕ × ℚ)))
    (st : RetrieverState) (query : String) (top_k? : Option ℕ)
    (filters : List (String × String)) (rerank : Bool)
    (hco : ∀ q docs n resp, co q docs n = Except.ok resp →
        resp.Pairwise (fun p1 p2 => p2.2 ≤ p1.2) ∧ (resp.map Prod.fst).Nodup
          ∧ ∀ p ∈ resp, p.1 < docs.length) :
    ∀ res, retrieve settings embed vsearch bm25_scores co st query top_k? filters rerank
        = Except.ok res →
      res.length ≤ orDefault top_k? settings.top_k_retrieval
      ∧ (rerank = true → res.length ≤ settings.rerank_top_k)
      ∧ res.Pairwise (fun e1 e2 => effScore e2 ≤ effScore e1) := by
  intro res hres
  cases hemb : embed query with
  | error e => simp [retrieve, hemb] at hres
  | ok v =>
    cases hvs : vsearch v ((orDefault top_k? settings.top_k_retrieval) * 2) filters with
    | error e => simp [retrieve, hemb, hvs] at hres
    | ok dense =>
      simp only [retrieve, hemb, hvs, Except.ok.injEq] at hres
      subst hres
      refine postFusion_bounded_sorted co settings query rerank
        (orDefault top_k? settings.top_k_retrieval) _ hco ?_ ?_
      · exact sortDesc_pairwise _
      · exact rrf_rerank_score_none _ _ _ _

/-- C8 witness: concrete services (a reranking service returning an empty,
vacuously sorted and valid response), evaluated at the concrete output of
`retrieve` on an empty corpus. -/
theorem retrieve_bounded_and_sorted_witness :
    ([] : List FusedResult).length ≤ orDefault (some 10) ({} : Settings).top_k_retrieval
    ∧ (true = true → ([] : List FusedResult).length ≤ 5)
    ∧ ([] : List FusedResult).Pairwise (fun e1 e2 => effScore e2 ≤ effScore e1) :=
  retrieve_bounded_and_sorted {} (fun _ => Except.ok [1])
    (fun _ _ _ => Except.ok []) (fun _ _ => []) (fun _ _ _ => Except.ok [])
    {} "q" (some 10) [] true
    (fun _ _ _ resp h => by
      injection h with h2
      subst h2
      exact ⟨List.Pairwise.nil, List.nodup_nil, fun p hp => absurd hp (List.not_mem_nil p)⟩)
    [] (by rfl)
